import Mathlib

/-!
Verification of the async-plugins concurrency primitives.

Shallow embedding of the repository's TypeScript sources:
  * `src/queue.ts`  — priority task queue with a concurrency ceiling
    (namespace `Queue`);
  * `src/dedupe.ts` — deduplicating call coalescer (namespace `Dedupe`);
  * `src/cache.ts`  — TTL/LRU cache `get` accessor (namespace `Cache`).

The JavaScript runtime is single-threaded and cooperative: code between
two `await` points runs atomically.  Each Lean "step" function below
models one such atomic block, translated statement by statement from the
source.  Machinery that no theorem touches and that cannot affect the
modelled fields (the `onEmpty`/`onDrain` waiter promises and the
logging-only callbacks of `queue.ts`) is elided; a callback failure is
caught and logged in the source and alters no queue state.
-/

namespace Queue

/-- One pending task record of `queue.ts` (`tasks` array entries).
`tid` is the task's insertion index (the promise executor identity);
`priority` is the caller-supplied numeric priority. -/
structure TaskRec where
  tid : Nat
  priority : Int
deriving DecidableEq, Repr

/-- Descending-priority order used by `tasks.sort((a, b) => b.priority - a.priority)`. -/
def PriGE (a b : TaskRec) : Prop := b.priority ≤ a.priority

/-- Tie-break discipline: among equal priorities, earlier insertion (smaller
`tid`) comes first. -/
def Rtie (a b : TaskRec) : Prop := a.priority = b.priority → a.tid < b.tid

instance : DecidableRel PriGE := fun a b => inferInstanceAs (Decidable (b.priority ≤ a.priority))

instance : DecidableRel Rtie := fun a b =>
  inferInstanceAs (Decidable (a.priority = b.priority → a.tid < b.tid))

/-- Stable insertion step for the descending sort: an element moves past a
later element only when its priority is strictly larger, so equal-priority
elements keep their original relative order — the behaviour of the
(stable) `Array.prototype.sort` in `queue.ts`. -/
def insertTask (t : TaskRec) : List TaskRec → List TaskRec
  | [] => [t]
  | h :: rest => if h.priority ≤ t.priority then t :: h :: rest else h :: insertTask t rest

/-- Stable descending sort by priority, the model of
`tasks.sort((a, b) => b.priority - a.priority)`. -/
def sortTasks : List TaskRec → List TaskRec
  | [] => []
  | t :: rest => insertTask t (sortTasks rest)

theorem insertTask_perm (t : TaskRec) (l : List TaskRec) :
    List.Perm (insertTask t l) (t :: l) := by
  induction l with
  | nil => exact List.Perm.refl _
  | cons h rest ih =>
    unfold insertTask
    split
    · exact List.Perm.refl _
    · exact ((ih.cons h).trans (List.Perm.swap t h rest))

theorem sortTasks_perm (l : List TaskRec) : List.Perm (sortTasks l) l := by
  induction l with
  | nil => exact List.Perm.refl _
  | cons t rest ih =>
    exact (insertTask_perm t (sortTasks rest)).trans (ih.cons t)

theorem mem_sortTasks {a : TaskRec} {l : List TaskRec} : a ∈ sortTasks l ↔ a ∈ l :=
  (sortTasks_perm l).mem_iff

theorem sorted_insertTask {t : TaskRec} {l : List TaskRec}
    (hl : l.Pairwise PriGE) : (insertTask t l).Pairwise PriGE := by
  induction l with
  | nil => simp [insertTask, List.Pairwise]
  | cons h rest ih =>
    unfold insertTask
    split
    · rename_i hle
      refine List.Pairwise.cons ?_ hl
      intro b hb
      rcases List.mem_cons.mp hb with hb | hb
      · subst hb; exact hle
      · exact le_trans (List.rel_of_pairwise_cons hl hb) hle
    · rename_i hgt
      push_neg at hgt
      rcases List.pairwise_cons.mp hl with ⟨hhd, hrest⟩
      refine List.Pairwise.cons ?_ (ih hrest)
      intro b hb
      rcases List.mem_cons.mp ((insertTask_perm t rest).mem_iff.mp hb) with hb | hb
      · subst hb; exact le_of_lt hgt
      · exact hhd b hb

theorem sorted_sortTasks (l : List TaskRec) : (sortTasks l).Pairwise PriGE := by
  induction l with
  | nil => simp [sortTasks, List.Pairwise]
  | cons t rest ih => exact sorted_insertTask ih

theorem tie_insertTask {t : TaskRec} {l : List TaskRec}
    (hl : l.Pairwise Rtie) (ht : ∀ u ∈ l, Rtie t u) : (insertTask t l).Pairwise Rtie := by
  induction l with
  | nil => simp [insertTask, List.Pairwise]
  | cons h rest ih =>
    unfold insertTask
    split
    · rename_i hle
      refine List.Pairwise.cons ?_ hl
      intro b hb
      rcases List.mem_cons.mp hb with hb | hb
      · subst hb; exact ht b (by simp)
      · exact ht b (by simp [hb])
    · rename_i hgt
      push_neg at hgt
      rcases List.pairwise_cons.mp hl with ⟨hhd, hrest⟩
      refine List.Pairwise.cons ?_ (ih hrest (fun u hu => ht u (by simp [hu])))
      intro b hb
      rcases List.mem_cons.mp ((insertTask_perm t rest).mem_iff.mp hb) with hb | hb
      · subst hb
        intro heq
        exact absurd heq (ne_of_gt hgt)
      · exact hhd b hb

theorem tie_sortTasks {l : List TaskRec} (hl : l.Pairwise Rtie) :
    (sortTasks l).Pairwise Rtie := by
  induction l with
  | nil => simp [sortTasks, List.Pairwise]
  | cons t rest ih =>
    rcases List.pairwise_cons.mp hl with ⟨hhd, hrest⟩
    exact tie_insertTask (ih hrest) (fun u hu => hhd u (mem_sortTasks.mp hu))

/-- The head of a descending-sorted, tie-ordered list is a maximal-priority
element, and among tasks of its priority it has the least insertion id. -/
theorem head_spec {t : TaskRec} {rest : List TaskRec}
    (hsorted : (t :: rest).Pairwise PriGE) (htie : (t :: rest).Pairwise Rtie) :
    ∀ u ∈ t :: rest, u.priority ≤ t.priority ∧ (u.priority = t.priority → t.tid ≤ u.tid) := by
  intro u hu
  rcases List.mem_cons.mp hu with hu | hu
  · subst hu; exact ⟨le_refl _, fun _ => le_refl _⟩
  · refine ⟨List.rel_of_pairwise_cons hsorted hu, ?_⟩
    intro hp
    exact le_of_lt (List.rel_of_pairwise_cons htie hu hp.symm)

/-- Settlement state of one task's caller-facing promise.  `cleared` models
the structural rejection `new Error('Queue cleared')` issued by `clear()`;
`opFailed` models the task's own operational rejection. -/
inductive Settlement where
  | pend
  | resolved (v : Nat)
  | cleared
  | opFailed (e : Nat)
deriving DecidableEq, Repr

/-- Pointwise update of the promise table. -/
def upd (f : Nat → Settlement) (i : Nat) (v : Settlement) : Nat → Settlement :=
  fun j => if j = i then v else f j

/-- The mutable closure state of one `createAsyncQueue` instance
(`queue.ts` lines 49-87).  `active` holds the ids of the tasks currently
running (its length is the `activeCount` counter: the counter is
incremented exactly when a task id enters the running set and decremented
exactly when that task settles).  `futures` is the promise table for
every task id ever created; `clearedCount` is a ghost counter of pending
tasks discarded by `clear()`; `nextId` is the ghost source of fresh task
ids. -/
structure QueueState where
  tasks : List TaskRec
  active : List Nat
  paused : Bool
  aborted : Bool
  concurrency : Nat
  needsSort : Bool
  futures : Nat → Settlement
  stPending : Nat
  stActive : Nat
  stCompleted : Nat
  stErrors : Nat
  stTotal : Nat
  clearedCount : Nat
  nextId : Nat

/-- Guard of `processNext` (`queue.ts` line 92): do nothing if paused,
aborted, at capacity, or empty. -/
def dispatchEnabled (s : QueueState) : Bool :=
  !s.paused && !s.aborted && decide (s.active.length < s.concurrency) && !s.tasks.isEmpty

/-- The lazy re-sort of `processNext` (`queue.ts` lines 97-100): sort by
priority only when the `needsSort` flag is set and more than one task is
pending. -/
def sortIfNeeded (s : QueueState) : QueueState :=
  if s.needsSort && decide (1 < s.tasks.length) then
    { s with tasks := sortTasks s.tasks, needsSort := false }
  else s

/-- The task a dispatch step would select: the head of the (lazily
re-sorted) pending list, provided the dispatch guard passes. -/
def dispatched (s : QueueState) : Option TaskRec :=
  if dispatchEnabled s then (sortIfNeeded s).tasks.head? else none

/-- One dispatch step, `processNext` (`queue.ts` lines 90-131): under the
guard, lazily re-sort, shift the first pending task, move its id into the
running set (`activeCount++`), and refresh the `pending`/`active` stat
mirrors.  (The `onEmpty` waiter resolution in the same block touches no
modelled field.)  The launched operation itself settles later, in a
separate `settleOk`/`settleErr` step. -/
def processNext (s : QueueState) : QueueState :=
  match dispatched s with
  | none => s
  | some t =>
    let s1 := sortIfNeeded s
    { s1 with
      tasks := s1.tasks.tail,
      active := t.tid :: s1.active,
      stPending := s1.tasks.tail.length,
      stActive := s1.active.length + 1 }

/-- The settlement handler for a successful task (`queue.ts` lines
137-148): resolve the caller's promise with the task's own result,
`stats.completed++`, `activeCount--`, and trigger another dispatch step.
A settlement only ever fires for a task that is actually running. -/
def settleOk (s : QueueState) (tid v : Nat) : QueueState :=
  if s.active.contains tid then
    processNext
      { s with
        futures := upd s.futures tid (Settlement.resolved v),
        active := s.active.erase tid,
        stCompleted := s.stCompleted + 1,
        stActive := s.active.length - 1 }
  else s

/-- The settlement handler for a failed task (`queue.ts` lines 149-173):
reject the caller's promise with the task's own error, `stats.errors++`,
`activeCount--`, and trigger another dispatch step.  The `onError` hook is
logging-only and alters no state. -/
def settleErr (s : QueueState) (tid e : Nat) : QueueState :=
  if s.active.contains tid then
    processNext
      { s with
        futures := upd s.futures tid (Settlement.opFailed e),
        active := s.active.erase tid,
        stErrors := s.stErrors + 1,
        stActive := s.active.length - 1 }
  else s

/-- The synchronous enqueue part of `add` (`queue.ts` lines 241-260):
push the record, set the lazy-sort flag, refresh `stats.pending`,
`stats.total++`.  No sorting happens here. -/
def enqueue (s : QueueState) (p : Int) : QueueState :=
  { s with
    tasks := s.tasks ++ [⟨s.nextId, p⟩],
    needsSort := true,
    futures := upd s.futures s.nextId Settlement.pend,
    stPending := s.tasks.length + 1,
    stTotal := s.stTotal + 1,
    nextId := s.nextId + 1 }

/-- `add(task, priority)` (`queue.ts` lines 236-264): reject without
enqueuing when aborted, otherwise enqueue and run a dispatch step. -/
def add (s : QueueState) (p : Int) : QueueState :=
  if s.aborted then s else processNext (enqueue s p)

/-- Bounded dispatch loop of `processMultiple` (`queue.ts` lines
226-232): run at most `n` dispatch steps, stopping early when no task is
pending. -/
def processMany : Nat → QueueState → QueueState
  | 0, s => s
  | n + 1, s => if s.tasks.isEmpty then s else processMany n (processNext s)

/-- `processMultiple` (`queue.ts` lines 226-232): the iteration bound
`available = concurrency - activeCount` is computed once before the
loop. -/
def processMultiple (s : QueueState) : QueueState :=
  processMany (s.concurrency - s.active.length) s

/-- The push loop of `addAll` (`queue.ts` lines 275-282), `n` tasks with
default priority 0. -/
def pushAll (s : QueueState) : Nat → QueueState
  | 0 => s
  | n + 1 => pushAll (enqueue s 0) n

/-- `addAll(tasks)` (`queue.ts` lines 266-307): reject when aborted,
resolve immediately on empty input, otherwise push every task and run
`processMultiple`. -/
def addAll (s : QueueState) (n : Nat) : QueueState :=
  if s.aborted then s
  else if n = 0 then s
  else processMultiple (pushAll s n)

/-- `pause()` (`queue.ts` lines 309-311). -/
def pause (s : QueueState) : QueueState := { s with paused := true }

/-- `resume()` (`queue.ts` lines 313-318). -/
def resume (s : QueueState) : QueueState :=
  if s.paused then processMultiple { s with paused := false } else s

/-- The rejection loop of `clear()` (`queue.ts` lines 206-208): settle
every pending task's promise with the `Queue cleared` condition. -/
def rejectAllPending (f : Nat → Settlement) : List TaskRec → (Nat → Settlement)
  | [] => f
  | t :: rest => rejectAllPending (upd f t.tid Settlement.cleared) rest

/-- `clear()` (`queue.ts` lines 205-223): reject every pending task as
cleared, empty the pending collection, zero `stats.pending`.  Running
tasks and `activeCount` are untouched.  (The waiter-promise resolution in
the same block touches no modelled field.) -/
def clear (s : QueueState) : QueueState :=
  { s with
    futures := rejectAllPending s.futures s.tasks,
    tasks := [],
    stPending := 0,
    clearedCount := s.clearedCount + s.tasks.length }

/-- `setConcurrency(n)` (`queue.ts` lines 371-379): clamp to at least 1;
on an increase run `processMultiple`; on a decrease do not preempt
running tasks. -/
def setConcurrency (s : QueueState) (n : Nat) : QueueState :=
  if s.concurrency < max 1 n then processMultiple { s with concurrency := max 1 n }
  else { s with concurrency := max 1 n }

/-- The queue operations a caller can interleave, plus the settlement
events of running tasks. -/
inductive QOp where
  | add (p : Int)
  | addAll (n : Nat)
  | settleOk (tid v : Nat)
  | settleErr (tid e : Nat)
  | pause
  | resume
  | clear
  | setConcurrency (n : Nat)
deriving DecidableEq, Repr

/-- Interpretation of one operation as an atomic state transition. -/
def step (s : QueueState) : QOp → QueueState
  | QOp.add p => add s p
  | QOp.addAll n => addAll s n
  | QOp.settleOk tid v => settleOk s tid v
  | QOp.settleErr tid e => settleErr s tid e
  | QOp.pause => pause s
  | QOp.resume => resume s
  | QOp.clear => clear s
  | QOp.setConcurrency n => setConcurrency s n

/-- Run a sequence of operations. -/
def run (s : QueueState) (ops : List QOp) : QueueState := ops.foldl step s

/-- The state built by `createAsyncQueue` (`queue.ts` lines 42-87):
empty queue, `paused = !autoStart`, not aborted, zeroed statistics. -/
def initQueue (c : Nat) (autoStart : Bool) : QueueState :=
  { tasks := []
    active := []
    paused := !autoStart
    aborted := false
    concurrency := c
    needsSort := false
    futures := fun _ => Settlement.pend
    stPending := 0
    stActive := 0
    stCompleted := 0
    stErrors := 0
    stTotal := 0
    clearedCount := 0
    nextId := 0 }

@[simp] theorem upd_self (f : Nat → Settlement) (i : Nat) (v : Settlement) :
    upd f i v i = v := by simp [upd]

theorem upd_ne (f : Nat → Settlement) {i j : Nat} (v : Settlement) (h : j ≠ i) :
    upd f i v j = f j := by simp [upd, h]

@[simp] theorem sortIfNeeded_active (s : QueueState) : (sortIfNeeded s).active = s.active := by
  unfold sortIfNeeded; split <;> rfl

@[simp] theorem sortIfNeeded_paused (s : QueueState) : (sortIfNeeded s).paused = s.paused := by
  unfold sortIfNeeded; split <;> rfl

@[simp] theorem sortIfNeeded_aborted (s : QueueState) : (sortIfNeeded s).aborted = s.aborted := by
  unfold sortIfNeeded; split <;> rfl

@[simp] theorem sortIfNeeded_concurrency (s : QueueState) :
    (sortIfNeeded s).concurrency = s.concurrency := by
  unfold sortIfNeeded; split <;> rfl

@[simp] theorem sortIfNeeded_futures (s : QueueState) :
    (sortIfNeeded s).futures = s.futures := by
  unfold sortIfNeeded; split <;> rfl

@[simp] theorem sortIfNeeded_nextId (s : QueueState) : (sortIfNeeded s).nextId = s.nextId := by
  unfold sortIfNeeded; split <;> rfl

@[simp] theorem sortIfNeeded_stTotal (s : QueueState) :
    (sortIfNeeded s).stTotal = s.stTotal := by
  unfold sortIfNeeded; split <;> rfl

@[simp] theorem sortIfNeeded_stCompleted (s : QueueState) :
    (sortIfNeeded s).stCompleted = s.stCompleted := by
  unfold sortIfNeeded; split <;> rfl

@[simp] theorem sortIfNeeded_stErrors (s : QueueState) :
    (sortIfNeeded s).stErrors = s.stErrors := by
  unfold sortIfNeeded; split <;> rfl

@[simp] theorem sortIfNeeded_clearedCount (s : QueueState) :
    (sortIfNeeded s).clearedCount = s.clearedCount := by
  unfold sortIfNeeded; split <;> rfl

theorem sortIfNeeded_tasks_perm (s : QueueState) :
    List.Perm (sortIfNeeded s).tasks s.tasks := by
  unfold sortIfNeeded
  split
  · exact sortTasks_perm s.tasks
  · exact List.Perm.refl _

theorem sortIfNeeded_tasks_length (s : QueueState) :
    (sortIfNeeded s).tasks.length = s.tasks.length :=
  (sortIfNeeded_tasks_perm s).length_eq

theorem dispatchEnabled_lt {s : QueueState} (h : dispatchEnabled s = true) :
    s.active.length < s.concurrency := by
  simp only [dispatchEnabled, Bool.and_eq_true, decide_eq_true_eq] at h
  exact h.1.2

/-- Either a dispatch step does nothing, or it shifts the head of the
lazily re-sorted pending list into the running set. -/
theorem processNext_cases (s : QueueState) :
    processNext s = s ∨
    ∃ t rest, dispatchEnabled s = true ∧ (sortIfNeeded s).tasks = t :: rest ∧
      processNext s =
        { sortIfNeeded s with
          tasks := rest,
          active := t.tid :: s.active,
          stPending := rest.length,
          stActive := s.active.length + 1 } := by
  unfold processNext
  cases hd : dispatched s with
  | none => exact Or.inl rfl
  | some t =>
    right
    unfold dispatched at hd
    by_cases he : dispatchEnabled s = true
    · rw [if_pos he] at hd
      cases htsk : (sortIfNeeded s).tasks with
      | nil => rw [htsk] at hd; simp at hd
      | cons a rest =>
        have ha : a = t := by rw [htsk] at hd; simpa using hd
        subst ha
        refine ⟨a, rest, he, rfl, ?_⟩
        simp [htsk]
    · rw [if_neg he] at hd; cases hd

theorem processNext_concurrency (s : QueueState) :
    (processNext s).concurrency = s.concurrency := by
  rcases processNext_cases s with h | ⟨t, rest, _, _, h⟩ <;> rw [h] <;> simp

theorem processNext_futures (s : QueueState) :
    (processNext s).futures = s.futures := by
  rcases processNext_cases s with h | ⟨t, rest, _, _, h⟩ <;> rw [h] <;> simp

theorem processNext_stTotal (s : QueueState) :
    (processNext s).stTotal = s.stTotal := by
  rcases processNext_cases s with h | ⟨t, rest, _, _, h⟩ <;> rw [h] <;> simp

theorem processNext_clearedCount (s : QueueState) :
    (processNext s).clearedCount = s.clearedCount := by
  rcases processNext_cases s with h | ⟨t, rest, _, _, h⟩ <;> rw [h] <;> simp

/-- Claim C2's invariant: the number of running tasks never exceeds the
configured concurrency limit. -/
def ConcOK (s : QueueState) : Prop := s.active.length ≤ s.concurrency

theorem concOK_processNext {s : QueueState} (h : ConcOK s) : ConcOK (processNext s) := by
  rcases processNext_cases s with hp | ⟨t, rest, he, _, hp⟩
  · rw [hp]; exact h
  · rw [hp]
    have hlt := dispatchEnabled_lt he
    simp only [ConcOK, List.length_cons, sortIfNeeded_concurrency]
    omega

theorem concOK_processMany {s : QueueState} (h : ConcOK s) (n : Nat) :
    ConcOK (processMany n s) := by
  induction n generalizing s with
  | zero => exact h
  | succ k ih =>
    unfold processMany
    split
    · exact h
    · exact ih (concOK_processNext h)

theorem concOK_processMultiple {s : QueueState} (h : ConcOK s) :
    ConcOK (processMultiple s) :=
  concOK_processMany h _

theorem concOK_enqueue {s : QueueState} (h : ConcOK s) (p : Int) : ConcOK (enqueue s p) := h

theorem concOK_add {s : QueueState} (h : ConcOK s) (p : Int) : ConcOK (add s p) := by
  unfold add
  split
  · exact h
  · exact concOK_processNext (concOK_enqueue h p)

theorem concOK_pushAll {s : QueueState} (h : ConcOK s) (n : Nat) : ConcOK (pushAll s n) := by
  induction n generalizing s with
  | zero => exact h
  | succ k ih => exact ih (concOK_enqueue h 0)

theorem concOK_addAll {s : QueueState} (h : ConcOK s) (n : Nat) : ConcOK (addAll s n) := by
  unfold addAll
  split
  · exact h
  · split
    · exact h
    · exact concOK_processMultiple (concOK_pushAll h n)

theorem concOK_settleOk {s : QueueState} (h : ConcOK s) (tid v : Nat) :
    ConcOK (settleOk s tid v) := by
  unfold settleOk
  split
  · refine concOK_processNext ?_
    show (s.active.erase tid).length ≤ s.concurrency
    exact le_trans ((s.active.erase_sublist tid).length_le) h
  · exact h

theorem concOK_settleErr {s : QueueState} (h : ConcOK s) (tid e : Nat) :
    ConcOK (settleErr s tid e) := by
  unfold settleErr
  split
  · refine concOK_processNext ?_
    show (s.active.erase tid).length ≤ s.concurrency
    exact le_trans ((s.active.erase_sublist tid).length_le) h
  · exact h

theorem concOK_clear {s : QueueState} (h : ConcOK s) : ConcOK (clear s) := h

theorem concOK_pause {s : QueueState} (h : ConcOK s) : ConcOK (pause s) := h

theorem concOK_resume {s : QueueState} (h : ConcOK s) : ConcOK (resume s) := by
  unfold resume
  split
  · exact concOK_processMultiple h
  · exact h

/-- Per-operation side condition of the amended ceiling claim: a
`setConcurrency` call may not lower the (clamped) limit below the number
of currently running tasks; every other operation is unconditional. -/
def stepOK (s : QueueState) : QOp → Bool
  | QOp.setConcurrency n => decide (s.active.length ≤ max 1 n)
  | _ => true

/-- A whole operation sequence satisfying the side condition at each step. -/
def guardedRun : QueueState → List QOp → Bool
  | _, [] => true
  | s, op :: ops => stepOK s op && guardedRun (step s op) ops

theorem concOK_setConcurrency {s : QueueState} (n : Nat)
    (hg : s.active.length ≤ max 1 n) : ConcOK (setConcurrency s n) := by
  unfold setConcurrency
  split
  · exact concOK_processMultiple hg
  · exact hg

theorem concOK_step {s : QueueState} {op : QOp} (h : ConcOK s)
    (hg : stepOK s op = true) : ConcOK (step s op) := by
  cases op with
  | add p => exact concOK_add h p
  | addAll n => exact concOK_addAll h n
  | settleOk tid v => exact concOK_settleOk h tid v
  | settleErr tid e => exact concOK_settleErr h tid e
  | pause => exact concOK_pause h
  | resume => exact concOK_resume h
  | clear => exact concOK_clear h
  | setConcurrency n =>
    simp only [stepOK, decide_eq_true_eq] at hg
    exact concOK_setConcurrency n hg

theorem concOK_run {ops : List QOp} {s : QueueState} (h : ConcOK s)
    (hg : guardedRun s ops = true) : ConcOK (run s ops) := by
  induction ops generalizing s with
  | nil => exact h
  | cons op rest ih =>
    simp only [guardedRun, Bool.and_eq_true] at hg
    exact ih (concOK_step h hg.1) hg.2

theorem guardedRun_append {l1 l2 : List QOp} {s : QueueState}
    (h : guardedRun s (l1 ++ l2) = true) : guardedRun s l1 = true := by
  induction l1 generalizing s with
  | nil => rfl
  | cons op rest ih =>
    simp only [List.cons_append, guardedRun, Bool.and_eq_true] at h ⊢
    exact ⟨h.1, ih h.2⟩

/-- Structural well-formedness of a queue state, maintained by every
atomic block of `queue.ts`: task ids are below the fresh-id source and
pairwise distinct, pending and running ids are disjoint, equal-priority
pending tasks sit in insertion order, and whenever the lazy-sort flag is
off the pending list is priority-sorted. -/
def QWf (s : QueueState) : Prop :=
  (∀ t ∈ s.tasks, t.tid < s.nextId) ∧
  (∀ a ∈ s.active, a < s.nextId) ∧
  s.tasks.Pairwise Rtie ∧
  (s.needsSort = false → s.tasks.Pairwise PriGE) ∧
  (∀ t ∈ s.tasks, t.tid ∉ s.active) ∧
  (s.tasks.map TaskRec.tid).Nodup

instance (s : QueueState) : Decidable (QWf s) := by
  unfold QWf; infer_instance

theorem qwf_sortIfNeeded {s : QueueState} (h : QWf s) : QWf (sortIfNeeded s) := by
  obtain ⟨h1, h2, h3, h4, h5, h6⟩ := h
  unfold sortIfNeeded
  split
  · refine ⟨?_, h2, tie_sortTasks h3, ?_, ?_, ?_⟩
    · intro t ht; exact h1 t (mem_sortTasks.mp ht)
    · intro _; exact sorted_sortTasks s.tasks
    · intro t ht; exact h5 t (mem_sortTasks.mp ht)
    · exact ((sortTasks_perm s.tasks).map TaskRec.tid).nodup_iff.mpr h6
  · exact ⟨h1, h2, h3, h4, h5, h6⟩

theorem qwf_processNext {s : QueueState} (h : QWf s) : QWf (processNext s) := by
  rcases processNext_cases s with hp | ⟨t, rest, he, htsk, hp⟩
  · rw [hp]; exact h
  · obtain ⟨h1, h2, h3, h4, h5, h6⟩ := qwf_sortIfNeeded h
    rw [htsk] at h1 h3 h4 h5 h6
    simp only [sortIfNeeded_active, sortIfNeeded_nextId] at h1 h2 h5
    have ftasks : (processNext s).tasks = rest := by rw [hp]
    have factive : (processNext s).active = t.tid :: s.active := by rw [hp]
    have fns : (processNext s).needsSort = (sortIfNeeded s).needsSort := by rw [hp]
    have fnext : (processNext s).nextId = s.nextId := by rw [hp]; simp
    refine ⟨?_, ?_, ?_, ?_, ?_, ?_⟩
    · rw [ftasks, fnext]
      intro u hu
      exact h1 u (List.mem_cons_of_mem t hu)
    · rw [factive, fnext]
      intro a ha
      rcases List.mem_cons.mp ha with ha | ha
      · subst ha; exact h1 t (List.mem_cons_self t rest)
      · exact h2 a ha
    · rw [ftasks]; exact h3.of_cons
    · rw [fns, ftasks]
      intro hns
      exact (h4 hns).of_cons
    · rw [ftasks, factive]
      intro u hu hmem
      rcases List.mem_cons.mp hmem with hc | hc
      · rw [List.map_cons] at h6
        rcases List.nodup_cons.mp h6 with ⟨hnotin, _⟩
        exact hnotin (hc ▸ List.mem_map_of_mem TaskRec.tid hu)
      · exact h5 u (List.mem_cons_of_mem t hu) hc
    · rw [ftasks]
      rw [List.map_cons] at h6
      exact (List.nodup_cons.mp h6).2

theorem qwf_enqueue {s : QueueState} (h : QWf s) (p : Int) : QWf (enqueue s p) := by
  obtain ⟨h1, h2, h3, h4, h5, h6⟩ := h
  unfold enqueue
  refine ⟨?_, ?_, ?_, ?_, ?_, ?_⟩
  · intro t ht
    rcases List.mem_append.mp ht with ht | ht
    · exact Nat.lt_succ_of_lt (h1 t ht)
    · rcases List.mem_singleton.mp ht with rfl
      exact Nat.lt_succ_self _
  · intro a ha; exact Nat.lt_succ_of_lt (h2 a ha)
  · rw [List.pairwise_append]
    refine ⟨h3, List.pairwise_singleton _ _, ?_⟩
    intro a ha b hb
    rcases List.mem_singleton.mp hb with rfl
    intro _
    exact h1 a ha
  · intro hns; cases hns
  · intro t ht
    rcases List.mem_append.mp ht with ht | ht
    · exact h5 t ht
    · rcases List.mem_singleton.mp ht with rfl
      intro hc
      exact absurd (h2 _ hc) (lt_irrefl _)
  · rw [List.map_append]
    rw [List.nodup_append]
    refine ⟨h6, List.nodup_singleton _, ?_⟩
    intro x hx
    rcases List.mem_map.mp hx with ⟨u, hu, rfl⟩
    simp only [List.map_cons, List.map_nil, List.mem_singleton]
    intro hc
    exact absurd (hc ▸ h1 u hu) (lt_irrefl _)

theorem qwf_add {s : QueueState} (h : QWf s) (p : Int) : QWf (add s p) := by
  unfold add
  split
  · exact h
  · exact qwf_processNext (qwf_enqueue h p)

theorem qwf_processMany {s : QueueState} (h : QWf s) (n : Nat) : QWf (processMany n s) := by
  induction n generalizing s with
  | zero => exact h
  | succ k ih =>
    unfold processMany
    split
    · exact h
    · exact ih (qwf_processNext h)

theorem qwf_processMultiple {s : QueueState} (h : QWf s) : QWf (processMultiple s) :=
  qwf_processMany h _

theorem qwf_pushAll {s : QueueState} (h : QWf s) (n : Nat) : QWf (pushAll s n) := by
  induction n generalizing s with
  | zero => exact h
  | succ k ih => exact ih (qwf_enqueue h 0)

theorem qwf_addAll {s : QueueState} (h : QWf s) (n : Nat) : QWf (addAll s n) := by
  unfold addAll
  split
  · exact h
  · split
    · exact h
    · exact qwf_processMultiple (qwf_pushAll h n)

theorem qwf_erase_active {s : QueueState} (h : QWf s) (tid : Nat)
    (fu : Nat → Settlement) (c e a : Nat) :
    QWf { s with futures := fu, active := s.active.erase tid,
                 stCompleted := c, stErrors := e, stActive := a } := by
  obtain ⟨h1, h2, h3, h4, h5, h6⟩ := h
  refine ⟨h1, ?_, h3, h4, ?_, h6⟩
  · intro x hx; exact h2 x (s.active.erase_sublist tid |>.mem hx)
  · intro t ht hc
    exact h5 t ht (s.active.erase_sublist tid |>.mem hc)

theorem qwf_settleOk {s : QueueState} (h : QWf s) (tid v : Nat) : QWf (settleOk s tid v) := by
  unfold settleOk
  split
  · exact qwf_processNext (qwf_erase_active h tid _ _ _ _)
  · exact h

theorem qwf_settleErr {s : QueueState} (h : QWf s) (tid e : Nat) : QWf (settleErr s tid e) := by
  unfold settleErr
  split
  · exact qwf_processNext (qwf_erase_active h tid _ _ _ _)
  · exact h

theorem qwf_clear {s : QueueState} (h : QWf s) : QWf (clear s) := by
  obtain ⟨_, h2, _, _, _, _⟩ := h
  exact ⟨by simp [clear], fun a ha => h2 a ha, by simp [clear],
         fun _ => by simp [clear], by simp [clear], by simp [clear]⟩

theorem qwf_pause {s : QueueState} (h : QWf s) : QWf (pause s) := h

theorem qwf_resume {s : QueueState} (h : QWf s) : QWf (resume s) := by
  unfold resume
  split
  · exact qwf_processMultiple h
  · exact h

theorem qwf_setConcurrency {s : QueueState} (h : QWf s) (n : Nat) :
    QWf (setConcurrency s n) := by
  unfold setConcurrency
  split
  · exact qwf_processMultiple h
  · exact h

theorem qwf_step {s : QueueState} (h : QWf s) (op : QOp) : QWf (step s op) := by
  cases op with
  | add p => exact qwf_add h p
  | addAll n => exact qwf_addAll h n
  | settleOk tid v => exact qwf_settleOk h tid v
  | settleErr tid e => exact qwf_settleErr h tid e
  | pause => exact qwf_pause h
  | resume => exact qwf_resume h
  | clear => exact qwf_clear h
  | setConcurrency n => exact qwf_setConcurrency h n

/-- Every state reachable from a fresh queue is well-formed, so the
`QWf` hypotheses of the dispatch and clear theorems hold throughout any
actual execution. -/
theorem qwf_run (c : Nat) (autoStart : Bool) (ops : List QOp) :
    QWf (run (initQueue c autoStart) ops) := by
  have hinit : QWf (initQueue c autoStart) := by
    refine ⟨?_, ?_, ?_, ?_, ?_, ?_⟩ <;> simp [initQueue]
  rw [run]
  induction ops generalizing c autoStart with
  | nil => exact hinit
  | cons op rest ih =>
    rw [List.foldl_cons]
    have : ∀ s, QWf s → QWf (List.foldl step s rest) := by
      intro s hs
      clear ih hinit
      induction rest generalizing s with
      | nil => exact hs
      | cons o r ihr => exact ihr _ (qwf_step hs o)
    exact this _ (qwf_step hinit op)

theorem run_preserve {P : QueueState → Prop} (hstep : ∀ s op, P s → P (step s op)) :
    ∀ (ops : List QOp) (s : QueueState), P s → P (run s ops)
  | [], _, hs => hs
  | op :: rest, s, hs => run_preserve hstep rest (step s op) (hstep s op hs)

/-- Generalised statistics identity: `total` counts completions, errors,
still-pending tasks, running tasks, and tasks discarded by `clear()`. -/
def StatsInv (s : QueueState) : Prop :=
  s.stTotal =
    s.stCompleted + s.stErrors + s.tasks.length + s.active.length + s.clearedCount

theorem statsInv_processNext {s : QueueState} (h : StatsInv s) : StatsInv (processNext s) := by
  rcases processNext_cases s with hp | ⟨t, rest, he, htsk, hp⟩
  · rw [hp]; exact h
  · have flen : s.tasks.length = rest.length + 1 := by
      rw [← sortIfNeeded_tasks_length s, htsk, List.length_cons]
    simp only [StatsInv] at h ⊢
    rw [hp]
    simp only [sortIfNeeded_stTotal, sortIfNeeded_stCompleted, sortIfNeeded_stErrors,
      sortIfNeeded_clearedCount, List.length_cons]
    omega

theorem statsInv_processMany {s : QueueState} (h : StatsInv s) (n : Nat) :
    StatsInv (processMany n s) := by
  induction n generalizing s with
  | zero => exact h
  | succ k ih =>
    unfold processMany
    split
    · exact h
    · exact ih (statsInv_processNext h)

theorem statsInv_processMultiple {s : QueueState} (h : StatsInv s) :
    StatsInv (processMultiple s) :=
  statsInv_processMany h _

theorem statsInv_enqueue {s : QueueState} (h : StatsInv s) (p : Int) :
    StatsInv (enqueue s p) := by
  simp only [StatsInv, enqueue, List.length_append, List.length_cons, List.length_nil] at h ⊢
  omega

theorem statsInv_add {s : QueueState} (h : StatsInv s) (p : Int) : StatsInv (add s p) := by
  unfold add
  split
  · exact h
  · exact statsInv_processNext (statsInv_enqueue h p)

theorem statsInv_pushAll {s : QueueState} (h : StatsInv s) (n : Nat) :
    StatsInv (pushAll s n) := by
  induction n generalizing s with
  | zero => exact h
  | succ k ih => exact ih (statsInv_enqueue h 0)

theorem statsInv_addAll {s : QueueState} (h : StatsInv s) (n : Nat) :
    StatsInv (addAll s n) := by
  unfold addAll
  split
  · exact h
  · split
    · exact h
    · exact statsInv_processMultiple (statsInv_pushAll h n)

theorem statsInv_settleOk {s : QueueState} (h : StatsInv s) (tid v : Nat) :
    StatsInv (settleOk s tid v) := by
  unfold settleOk
  split
  · rename_i hc
    have hmem : tid ∈ s.active := by simpa using hc
    refine statsInv_processNext ?_
    have hpos : 1 ≤ s.active.length := List.length_pos.mpr (List.ne_nil_of_mem hmem)
    simp only [StatsInv] at h ⊢
    rw [List.length_erase_of_mem hmem]
    omega
  · exact h

theorem statsInv_settleErr {s : QueueState} (h : StatsInv s) (tid e : Nat) :
    StatsInv (settleErr s tid e) := by
  unfold settleErr
  split
  · rename_i hc
    have hmem : tid ∈ s.active := by simpa using hc
    refine statsInv_processNext ?_
    have hpos : 1 ≤ s.active.length := List.length_pos.mpr (List.ne_nil_of_mem hmem)
    simp only [StatsInv] at h ⊢
    rw [List.length_erase_of_mem hmem]
    omega
  · exact h

theorem statsInv_clear {s : QueueState} (h : StatsInv s) : StatsInv (clear s) := by
  simp only [StatsInv, clear, List.length_nil] at h ⊢
  omega

theorem statsInv_step {s : QueueState} (op : QOp) (h : StatsInv s) : StatsInv (step s op) := by
  cases op with
  | add p => exact statsInv_add h p
  | addAll n => exact statsInv_addAll h n
  | settleOk tid v => exact statsInv_settleOk h tid v
  | settleErr tid e => exact statsInv_settleErr h tid e
  | pause => exact h
  | resume =>
    show StatsInv (resume s)
    unfold resume
    split
    · exact statsInv_processMultiple h
    · exact h
  | clear => exact statsInv_clear h
  | setConcurrency n =>
    show StatsInv (setConcurrency s n)
    unfold setConcurrency
    split
    · exact statsInv_processMultiple h
    · exact h

theorem rejectAllPending_not_mem (f : Nat → Settlement) (l : List TaskRec) (x : Nat)
    (hx : x ∉ l.map TaskRec.tid) : rejectAllPending f l x = f x := by
  induction l generalizing f with
  | nil => rfl
  | cons t rest ih =>
    rw [List.map_cons, List.mem_cons] at hx
    push_neg at hx
    unfold rejectAllPending
    rw [ih _ hx.2]
    exact upd_ne f _ hx.1

theorem rejectAllPending_mem (f : Nat → Settlement) (l : List TaskRec) (x : Nat)
    (hx : x ∈ l.map TaskRec.tid) : rejectAllPending f l x = Settlement.cleared := by
  induction l generalizing f with
  | nil => cases hx
  | cons t rest ih =>
    unfold rejectAllPending
    by_cases hr : x ∈ rest.map TaskRec.tid
    · exact ih _ hr
    · have hxt : x = t.tid := by
        rw [List.map_cons, List.mem_cons] at hx
        rcases hx with h | h
        · exact h
        · exact absurd h hr
      rw [rejectAllPending_not_mem _ _ _ hr, hxt]
      simp

/-- C2 (counterexample): lowering the concurrency limit below the number
of already-running tasks does not preempt them (`setConcurrency`,
`queue.ts` lines 371-379), so after two tasks start under limit 2 and the
limit is lowered to 1, `activeCount = 2 > 1 = concurrencyLimit`: the
ceiling invariant does not hold across arbitrary operation sequences. -/
theorem queue_concurrency_ceiling_cex :
    ¬ ((run (initQueue 2 true) [QOp.add 0, QOp.add 0, QOp.setConcurrency 1]).active.length ≤
       (run (initQueue 2 true) [QOp.add 0, QOp.add 0, QOp.setConcurrency 1]).concurrency) := by
  decide

/-- C2 (amended): at every point of any operation sequence
(`add`/`addAll`/settlement/`pause`/`resume`/`clear`/`setConcurrency`),
the number of running tasks is at most the configured concurrency limit,
provided no `setConcurrency` call lowers the (clamped) limit below the
number of tasks running at that moment.  "Every point" is expressed by
bounding the state after an arbitrary prefix `pre` of the guarded
sequence. -/
theorem queue_concurrency_ceiling (c : Nat) (autoStart : Bool) (pre suf : List QOp)
    (hg : guardedRun (initQueue c autoStart) (pre ++ suf) = true) :
    (run (initQueue c autoStart) pre).active.length ≤
      (run (initQueue c autoStart) pre).concurrency := by
  have h0 : ConcOK (initQueue c autoStart) := by simp [ConcOK, initQueue]
  exact concOK_run h0 (guardedRun_append hg)

/-- Witness for C2's amended theorem at a concrete guarded sequence. -/
theorem queue_concurrency_ceiling_witness :
    (run (initQueue 2 true) [QOp.add 0, QOp.add 0]).active.length ≤
      (run (initQueue 2 true) [QOp.add 0, QOp.add 0]).concurrency :=
  queue_concurrency_ceiling 2 true [QOp.add 0, QOp.add 0] [QOp.setConcurrency 5] (by decide)

/-- C7 (counterexample): `clear()` rejects pending tasks without counting
them as completions or errors (`queue.ts` lines 205-223), so after
enqueuing one task on a paused queue and clearing, `total = 1` while
`completed + errors + pending + active = 0`: the claimed identity fails
for sequences containing `clear()`. -/
theorem queue_stats_identity_cex :
    ¬ ((run (initQueue 1 false) [QOp.add 0, QOp.clear]).stTotal =
       (run (initQueue 1 false) [QOp.add 0, QOp.clear]).stCompleted +
       (run (initQueue 1 false) [QOp.add 0, QOp.clear]).stErrors +
       (run (initQueue 1 false) [QOp.add 0, QOp.clear]).tasks.length +
       (run (initQueue 1 false) [QOp.add 0, QOp.clear]).active.length) := by
  decide

/-- C7 (amended): at quiescence after any operation sequence, the
cumulative statistics satisfy
`total = completed + errors + pending.length + activeCount + cleared`,
where `cleared` counts the pending tasks discarded by `clear()`; for
sequences without `clear()` the discarded count is zero and the original
identity is recovered. -/
theorem queue_stats_identity (c : Nat) (autoStart : Bool) (ops : List QOp) :
    (run (initQueue c autoStart) ops).stTotal =
      (run (initQueue c autoStart) ops).stCompleted +
      (run (initQueue c autoStart) ops).stErrors +
      (run (initQueue c autoStart) ops).tasks.length +
      (run (initQueue c autoStart) ops).active.length +
      (run (initQueue c autoStart) ops).clearedCount := by
  have h0 : StatsInv (initQueue c autoStart) := by simp [StatsInv, initQueue]
  exact run_preserve (fun s op h => statsInv_step op h) ops _ h0

/-- C3: a dispatch step selects a pending task of maximal priority, and
among tasks of that priority the one added earliest (stable tie-break);
`add` itself never sorts — it appends the new record in insertion order
and only sets the lazy `needsSort` flag, deferring the sort to the next
dispatch (`queue.ts` lines 90-106, 241-243). -/
theorem queue_priority_dispatch (s : QueueState) (hwf : QWf s) (p : Int) :
    (enqueue s p).tasks = s.tasks ++ [⟨s.nextId, p⟩] ∧
    (enqueue s p).needsSort = true ∧
    (∀ t, dispatched s = some t →
      t ∈ s.tasks ∧
      ∀ u ∈ s.tasks, u.priority ≤ t.priority ∧
        (u.priority = t.priority → t.tid ≤ u.tid)) := by
  refine ⟨rfl, rfl, ?_⟩
  intro t ht
  unfold dispatched at ht
  split at ht
  case isTrue he =>
    by_cases hc : (s.needsSort && decide (1 < s.tasks.length)) = true
    · have hts : (sortIfNeeded s).tasks = sortTasks s.tasks := by
        simp [sortIfNeeded, hc]
      rw [hts] at ht
      cases hl : sortTasks s.tasks with
      | nil => rw [hl] at ht; cases ht
      | cons a r =>
        rw [hl] at ht
        have ha : a = t := by simpa using ht
        subst ha
        have hsorted : (a :: r).Pairwise PriGE := hl ▸ sorted_sortTasks s.tasks
        have htie0 : (a :: r).Pairwise Rtie := hl ▸ tie_sortTasks hwf.2.2.1
        constructor
        · exact mem_sortTasks.mp (hl ▸ List.mem_cons_self a r)
        · intro u hu
          exact head_spec hsorted htie0 u (hl ▸ mem_sortTasks.mpr hu)
    · have hts : sortIfNeeded s = s := by
        unfold sortIfNeeded
        rw [if_neg hc]
      rw [hts] at ht
      by_cases hns : s.needsSort = false
      · have hsorted := hwf.2.2.2.1 hns
        cases hl : s.tasks with
        | nil => rw [hl] at ht; cases ht
        | cons a r =>
          rw [hl] at ht
          have ha : a = t := by simpa using ht
          subst ha
          have htie0 : (a :: r).Pairwise Rtie := hl ▸ hwf.2.2.1
          rw [hl] at hsorted
          constructor
          · exact List.mem_cons_self a r
          · intro u hu
            exact head_spec hsorted htie0 u hu
      · have hb : s.needsSort = true := by
          revert hns; cases s.needsSort <;> simp
        have hlen : ¬ (1 < s.tasks.length) := by
          intro hlt
          exact hc (by simp [hb, hlt])
        cases hl : s.tasks with
        | nil => rw [hl] at ht; cases ht
        | cons a r =>
          rw [hl] at ht
          have ha : a = t := by simpa using ht
          subst ha
          have hr : r = [] := by
            cases r with
            | nil => rfl
            | cons b rb =>
              exfalso
              apply hlen
              rw [hl]
              simp only [List.length_cons]
              omega
          subst hr
          constructor
          · exact List.mem_cons_self a []
          · intro u hu
            rcases List.mem_singleton.mp hu with rfl
            exact ⟨le_refl _, fun _ => le_refl _⟩
  case isFalse => cases ht

/-- A concrete well-formed queue state with several pending tasks
(priorities 0, 10, 5, 10 in insertion order) and a free dispatch slot. -/
def sampleDispatchState : QueueState :=
  { tasks := [⟨0, 0⟩, ⟨1, 10⟩, ⟨2, 5⟩, ⟨3, 10⟩]
    active := []
    paused := false
    aborted := false
    concurrency := 1
    needsSort := true
    futures := fun _ => Settlement.pend
    stPending := 4
    stActive := 0
    stCompleted := 0
    stErrors := 0
    stTotal := 4
    clearedCount := 0
    nextId := 4 }

/-- Witness for C3 at the concrete state: the insertion-ordered append
and the selection property hold there. -/
theorem queue_priority_dispatch_witness :
    (enqueue sampleDispatchState 7).tasks =
        sampleDispatchState.tasks ++ [⟨sampleDispatchState.nextId, 7⟩] ∧
    (enqueue sampleDispatchState 7).needsSort = true ∧
    (∀ t, dispatched sampleDispatchState = some t →
      t ∈ sampleDispatchState.tasks ∧
      ∀ u ∈ sampleDispatchState.tasks, u.priority ≤ t.priority ∧
        (u.priority = t.priority → t.tid ≤ u.tid)) :=
  queue_priority_dispatch sampleDispatchState (by decide) 7

/-- C4: `clear()` empties the pending collection and rejects every
pending task's promise with the distinguishable `Queue cleared`
condition, while the running set is untouched: running promises keep
their previous (unsettled) state and a later settlement still delivers
the operation's own outcome (`queue.ts` lines 134-174, 204-223). -/
theorem queue_clear_isolates (s : QueueState) (hwf : QWf s) :
    (clear s).tasks = [] ∧
    (∀ t ∈ s.tasks, (clear s).futures t.tid = Settlement.cleared) ∧
    (clear s).active = s.active ∧
    (∀ a ∈ s.active, (clear s).futures a = s.futures a) ∧
    (∀ a ∈ s.active, ∀ v, (settleOk (clear s) a v).futures a = Settlement.resolved v) ∧
    (∀ a ∈ s.active, ∀ e, (settleErr (clear s) a e).futures a = Settlement.opFailed e) := by
  have h5 := hwf.2.2.2.2.1
  refine ⟨rfl, ?_, rfl, ?_, ?_, ?_⟩
  · intro t ht
    exact rejectAllPending_mem _ _ _ (List.mem_map_of_mem TaskRec.tid ht)
  · intro a ha
    refine rejectAllPending_not_mem _ _ _ ?_
    intro hc
    rcases List.mem_map.mp hc with ⟨u, hu, htid⟩
    exact h5 u hu (htid ▸ ha)
  · intro a ha v
    have hcont : (clear s).active.contains a = true := by
      show s.active.contains a = true
      simpa using ha
    unfold settleOk
    rw [if_pos hcont, processNext_futures]
    simp [upd]
  · intro a ha e
    have hcont : (clear s).active.contains a = true := by
      show s.active.contains a = true
      simpa using ha
    unfold settleErr
    rw [if_pos hcont, processNext_futures]
    simp [upd]

/-- A concrete well-formed queue state with one running task (id 0) and
one pending task (id 1). -/
def sampleClearState : QueueState :=
  { tasks := [⟨1, 0⟩]
    active := [0]
    paused := false
    aborted := false
    concurrency := 1
    needsSort := true
    futures := fun _ => Settlement.pend
    stPending := 1
    stActive := 1
    stCompleted := 0
    stErrors := 0
    stTotal := 2
    clearedCount := 0
    nextId := 2 }

/-- Witness for C4 at the concrete state. -/
theorem queue_clear_isolates_witness :
    (clear sampleClearState).tasks = [] ∧
    (∀ t ∈ sampleClearState.tasks,
      (clear sampleClearState).futures t.tid = Settlement.cleared) ∧
    (clear sampleClearState).active = sampleClearState.active ∧
    (∀ a ∈ sampleClearState.active,
      (clear sampleClearState).futures a = sampleClearState.futures a) ∧
    (∀ a ∈ sampleClearState.active, ∀ v,
      (settleOk (clear sampleClearState) a v).futures a = Settlement.resolved v) ∧
    (∀ a ∈ sampleClearState.active, ∀ e,
      (settleErr (clear sampleClearState) a e).futures a = Settlement.opFailed e) :=
  queue_clear_isolates sampleClearState (by decide)

end Queue

namespace Dedupe

/-!
Embedding of `createAsyncDedupe` (`src/dedupe.ts`).  The wrapped call is
an `async` arrow function: its body runs synchronously from the key
lookup (line 61) through `inProgress.set(key, record)` (line 102) and the
synchronous start of `fn` (line 120), so one `callStep` below is one
atomic block.  JavaScript object identity of a `PromiseRecord` is
modelled by a ghost `gen` field drawn from a fresh counter: two records
created by different calls always have different `gen`, and `=== `
comparison of records is `gen` equality.  `fnCalls` is a ghost counter of
underlying-function invocations.  The key is the final string key
(`config.keyPrefix` merely namespaces it and no claim depends on it).
The map is an association list with unique keys; entry order is not
observable by any claim.
-/

/-- One `PromiseRecord` (`dedupe.ts` lines 9-14): `gen` is the record's
identity, `timestamp` its creation time, `subscribers` the attached
caller count.  The promise itself is identified by `gen`: callers that
receive equal `gen` share one promise and hence one outcome. -/
structure DRecord where
  gen : Nat
  timestamp : Nat
  subscribers : Nat
deriving DecidableEq, Repr

/-- The closure state of one `createAsyncDedupe` instance. -/
structure DedupeState where
  inProgress : List (String × DRecord)
  nextGen : Nat
  fnCalls : Nat
deriving DecidableEq, Repr

/-- `inProgress.get(key)`. -/
def dlookup (k : String) (l : List (String × DRecord)) : Option DRecord :=
  (l.find? (fun pr => pr.1 == k)).map Prod.snd

/-- `inProgress.set(key, v)` on a unique-key map. -/
def dset (k : String) (v : DRecord) (l : List (String × DRecord)) :
    List (String × DRecord) :=
  l.filter (fun pr => !(pr.1 == k)) ++ [(k, v)]

/-- `inProgress.delete(key)` on a unique-key map. -/
def dremove (k : String) (l : List (String × DRecord)) : List (String × DRecord) :=
  l.filter (fun pr => !(pr.1 == k))

/-- The staleness test of `dedupe.ts` line 65: a caller joins the
in-flight record iff `!config.timeout || now - record.timestamp <
config.timeout`; `timedOut` is the negation.  A `timeout` of 0 is falsy
in JavaScript and disables the check, like `undefined`. -/
def timedOut (timeout : Option Nat) (now ts : Nat) : Bool :=
  match timeout with
  | none => false
  | some t => if t = 0 then false else decide (t ≤ now - ts)

/-- Configuration (`DedupeOptions`): `timeout`, `errorSharing`. -/
structure DedupeConfig where
  timeout : Option Nat
  errorSharing : Bool
deriving DecidableEq, Repr

/-- The new-invocation path (`dedupe.ts` lines 81-120): create the
record, register it under the key, invoke the underlying function
(`fnCalls` increments), all before any suspension point.  Returns the new
state and the `gen` of the record whose promise this caller receives. -/
def startNew (s : DedupeState) (key : String) (now : Nat) : DedupeState × Nat :=
  ({ inProgress := dset key ⟨s.nextGen, now, 1⟩ s.inProgress,
     nextGen := s.nextGen + 1,
     fnCalls := s.fnCalls + 1 }, s.nextGen)

/-- One wrapped call's synchronous prefix (`dedupe.ts` lines 54-120): if
a live, non-timed-out record exists for the key, attach as a subscriber
(`record.subscribers++`) and return that record's promise; otherwise
start a new invocation.  There is no suspension between the lookup and
the registration. -/
def callStep (cfg : DedupeConfig) (s : DedupeState) (key : String) (now : Nat) :
    DedupeState × Nat :=
  match dlookup key s.inProgress with
  | some r =>
    if timedOut cfg.timeout now r.timestamp then startNew s key now
    else
      ({ s with
         inProgress := dset key { r with subscribers := r.subscribers + 1 } s.inProgress },
       r.gen)
  | none => startNew s key now

/-- A burst of calls with the same key at the given times, with no
settlement in between; returns the final state and the promise identity
each caller received. -/
def runCalls (cfg : DedupeConfig) (key : String) :
    DedupeState → List Nat → DedupeState × List Nat
  | s, [] => (s, [])
  | s, now :: rest =>
    let p := callStep cfg s key now
    let q := runCalls cfg key p.1 rest
    (q.1, p.2 :: q.2)

/-- The `finally` cleanup of a settling invocation (`dedupe.ts` lines
126-132): delete the map entry only if the stored record is still the
very record this invocation created (`inProgress.get(key) === record`,
modelled as `gen` equality). -/
def settleCleanup (s : DedupeState) (key : String) (g : Nat) : DedupeState :=
  match dlookup key s.inProgress with
  | some r =>
    if r.gen = g then { s with inProgress := dremove key s.inProgress } else s
  | none => s

theorem find?_dremove (k : String) (l : List (String × DRecord)) :
    (l.filter (fun pr => !(pr.1 == k))).find? (fun pr => pr.1 == k) = none := by
  induction l with
  | nil => rfl
  | cons p rest ih =>
    rw [List.filter_cons]
    by_cases hp : (p.1 == k) = true
    · simp only [hp, Bool.not_true, Bool.false_eq_true, if_false]
      exact ih
    · have hp2 : (p.1 == k) = false := by
        revert hp; cases p.1 == k <;> simp
      simp only [hp2, Bool.not_false, if_true]
      rw [List.find?_cons_of_neg _ (by simp [hp2])]
      exact ih

theorem dlookup_dremove_self (k : String) (l : List (String × DRecord)) :
    dlookup k (dremove k l) = none := by
  unfold dlookup dremove
  rw [find?_dremove]
  rfl

theorem dlookup_dset_self (k : String) (v : DRecord) (l : List (String × DRecord)) :
    dlookup k (dset k v l) = some v := by
  unfold dlookup dset
  rw [List.find?_append, find?_dremove]
  simp

/-- Subscribing calls: while a record for the key is live and no call
times out against it, every call in a burst bumps the subscriber count,
receives the existing record's promise identity, and neither starts a
new invocation nor mints a new record. -/
theorem runCalls_subscribe (cfg : DedupeConfig) (key : String) (nows : List Nat) :
    ∀ (s : DedupeState) (r : DRecord),
      dlookup key s.inProgress = some r →
      (∀ n ∈ nows, timedOut cfg.timeout n r.timestamp = false) →
      (runCalls cfg key s nows).1.fnCalls = s.fnCalls ∧
      (runCalls cfg key s nows).1.nextGen = s.nextGen ∧
      (runCalls cfg key s nows).2 = List.replicate nows.length r.gen ∧
      dlookup key (runCalls cfg key s nows).1.inProgress =
        some { r with subscribers := r.subscribers + nows.length } := by
  induction nows with
  | nil =>
    intro s r hl _
    refine ⟨rfl, rfl, rfl, ?_⟩
    simpa using hl
  | cons now rest ih =>
    intro s r hl ht
    have hto : timedOut cfg.timeout now r.timestamp = false :=
      ht now (List.mem_cons_self now rest)
    have hstep : callStep cfg s key now =
        ({ s with
           inProgress := dset key { r with subscribers := r.subscribers + 1 } s.inProgress },
         r.gen) := by
      unfold callStep
      rw [hl]
      simp [hto]
    have hl2 : dlookup key (callStep cfg s key now).1.inProgress =
        some { r with subscribers := r.subscribers + 1 } := by
      rw [hstep]
      exact dlookup_dset_self key _ s.inProgress
    have ht2 : ∀ n ∈ rest,
        timedOut cfg.timeout n ({ r with subscribers := r.subscribers + 1 } : DRecord).timestamp
          = false :=
      fun n hn => ht n (List.mem_cons_of_mem now hn)
    obtain ⟨ih1, ih2, ih3, ih4⟩ := ih (callStep cfg s key now).1 _ hl2 ht2
    refine ⟨?_, ?_, ?_, ?_⟩
    · show (runCalls cfg key (callStep cfg s key now).1 rest).1.fnCalls = s.fnCalls
      rw [ih1, hstep]
    · show (runCalls cfg key (callStep cfg s key now).1 rest).1.nextGen = s.nextGen
      rw [ih2, hstep]
    · show (callStep cfg s key now).2 ::
          (runCalls cfg key (callStep cfg s key now).1 rest).2 =
        List.replicate (rest.length + 1) r.gen
      rw [ih3, hstep, List.replicate_succ]
    · show dlookup key (runCalls cfg key (callStep cfg s key now).1 rest).1.inProgress = _
      rw [ih4]
      have harith : r.subscribers + 1 + rest.length = r.subscribers + (rest.length + 1) := by
        omega
      simp only [List.length_cons]
      rw [← harith]

/-- C1: with the key not in flight, a burst of `N = rest.length + 1`
calls with the same key, no settlement in between, and no configured or
exceeded timeout invokes the underlying function exactly once; the first
call registers the record synchronously (lookup and registration are one
atomic block of `callStep`), and every call receives the same record's
promise (`gen = s.nextGen`), the record ending with `N` subscribers. -/
theorem dedupe_single_flight (cfg : DedupeConfig) (s : DedupeState) (key : String)
    (t0 : Nat) (rest : List Nat)
    (h0 : dlookup key s.inProgress = none)
    (ht : ∀ n ∈ rest, timedOut cfg.timeout n t0 = false) :
    (runCalls cfg key s (t0 :: rest)).1.fnCalls = s.fnCalls + 1 ∧
    (runCalls cfg key s (t0 :: rest)).2 = List.replicate (rest.length + 1) s.nextGen ∧
    dlookup key (runCalls cfg key s (t0 :: rest)).1.inProgress =
      some ⟨s.nextGen, t0, rest.length + 1⟩ := by
  have hstep : callStep cfg s key t0 = startNew s key t0 := by
    unfold callStep
    rw [h0]
  have hl1 : dlookup key (startNew s key t0).1.inProgress =
      some (⟨s.nextGen, t0, 1⟩ : DRecord) :=
    dlookup_dset_self key _ s.inProgress
  obtain ⟨ih1, ih2, ih3, ih4⟩ :=
    runCalls_subscribe cfg key rest (startNew s key t0).1 ⟨s.nextGen, t0, 1⟩ hl1 ht
  refine ⟨?_, ?_, ?_⟩
  · show (runCalls cfg key (callStep cfg s key t0).1 rest).1.fnCalls = s.fnCalls + 1
    rw [hstep, ih1]
    rfl
  · show (callStep cfg s key t0).2 ::
        (runCalls cfg key (callStep cfg s key t0).1 rest).2 =
      List.replicate (rest.length + 1) s.nextGen
    rw [hstep, ih3, List.replicate_succ]
    rfl
  · show dlookup key (runCalls cfg key (callStep cfg s key t0).1 rest).1.inProgress = _
    rw [hstep, ih4]
    simp [Nat.add_comm 1 rest.length]

/-- Witness for C1: three concurrent calls (times 5, 6, 7) with no
timeout configured invoke the function once and share one record. -/
theorem dedupe_single_flight_witness :
    (runCalls ⟨none, true⟩ "k" ⟨[], 0, 0⟩ (5 :: [6, 7])).1.fnCalls =
      (⟨[], 0, 0⟩ : DedupeState).fnCalls + 1 ∧
    (runCalls ⟨none, true⟩ "k" ⟨[], 0, 0⟩ (5 :: [6, 7])).2 =
      List.replicate ([6, 7].length + 1) (⟨[], 0, 0⟩ : DedupeState).nextGen ∧
    dlookup "k" (runCalls ⟨none, true⟩ "k" ⟨[], 0, 0⟩ (5 :: [6, 7])).1.inProgress =
      some ⟨(⟨[], 0, 0⟩ : DedupeState).nextGen, 5, [6, 7].length + 1⟩ :=
  dedupe_single_flight ⟨none, true⟩ ⟨[], 0, 0⟩ "k" 5 [6, 7] (by decide) (by decide)

/-- C6: a settling invocation removes its key's map entry only when the
stored record is still its own (matching `gen`); when the stored record
was superseded (different `gen`), the cleanup leaves the whole state —
in particular the newer record — untouched. -/
theorem dedupe_cleanup_guard (s : DedupeState) (key : String) (g : Nat) (r : DRecord)
    (h : dlookup key s.inProgress = some r) :
    (r.gen = g → dlookup key (settleCleanup s key g).inProgress = none) ∧
    (r.gen ≠ g → settleCleanup s key g = s) := by
  constructor
  · intro hg
    unfold settleCleanup
    rw [h]
    show dlookup key ((if r.gen = g then
        ({ s with inProgress := dremove key s.inProgress } : DedupeState)
      else s)).inProgress = none
    rw [if_pos hg]
    exact dlookup_dremove_self key s.inProgress
  · intro hg
    unfold settleCleanup
    rw [h]
    show (if r.gen = g then
        ({ s with inProgress := dremove key s.inProgress } : DedupeState)
      else s) = s
    rw [if_neg hg]

/-- Witness for C6: a slow finisher whose record (gen 3) was superseded
by the stored record of gen 5 does not delete the newer record. -/
theorem dedupe_cleanup_guard_witness :
    ((⟨5, 0, 1⟩ : DRecord).gen = 3 →
      dlookup "k" (settleCleanup ⟨[("k", ⟨5, 0, 1⟩)], 6, 1⟩ "k" 3).inProgress = none) ∧
    ((⟨5, 0, 1⟩ : DRecord).gen ≠ 3 →
      settleCleanup ⟨[("k", ⟨5, 0, 1⟩)], 6, 1⟩ "k" 3 = ⟨[("k", ⟨5, 0, 1⟩)], 6, 1⟩) :=
  dedupe_cleanup_guard ⟨[("k", ⟨5, 0, 1⟩)], 6, 1⟩ "k" 3 ⟨5, 0, 1⟩ (by decide)

/-- A JavaScript `Error` object: `eid` is its object identity, the other
fields its observable payload. -/
structure JsError where
  eid : Nat
  name : String
  message : String
deriving DecidableEq, Repr

/-- A promise rejection value: an `Error` instance or a primitive (whose
`String(error)` rendering is stored). -/
inductive RejectionValue where
  | errObj (e : JsError)
  | primitive (str : String)
deriving DecidableEq, Repr

/-- The subscriber-side handler installed when `errorSharing` is
disabled (`dedupe.ts` lines 70-73):
`throw error instanceof Error ? error : new Error(String(error))`.
`freshId` is the identity a newly constructed `Error` would get. -/
def isolatedRejection (freshId : Nat) : RejectionValue → JsError
  | RejectionValue.errObj e => e
  | RejectionValue.primitive str => ⟨freshId, "Error", str⟩

/-- C5 (code evaluation at the failing input): with `errorSharing`
disabled and the shared invocation rejecting with an `Error` instance
(identity 1, message `test error`), the subscriber's handler re-throws
the very same object — same identity 1, not an independently-constructed
copy — so a subscriber mutating its error does affect the others'. -/
theorem dedupe_error_identity_shared :
    isolatedRejection 99 (RejectionValue.errObj ⟨1, "Error", "test error"⟩) =
      ⟨1, "Error", "test error"⟩ ∧
    (isolatedRejection 99 (RejectionValue.errObj ⟨1, "Error", "test error"⟩)).eid = 1 :=
  ⟨rfl, rfl⟩

/-- A JavaScript value, as far as the trailing-argument heuristic of
`dedupe.ts` lines 108-118 can distinguish them. -/
inductive JsVal where
  | undef
  | nullV
  | boolV (b : Bool)
  | numV (n : Int)
  | strV (str : String)
  | objV (fields : List (String × JsVal))
  | arrV (elems : List JsVal)
  | signalV (sid : Nat)

/-- JavaScript truthiness. -/
def jsTruthy : JsVal → Bool
  | JsVal.undef => false
  | JsVal.nullV => false
  | JsVal.boolV b => b
  | JsVal.numV n => !(n == 0)
  | JsVal.strV str => !(str == "")
  | JsVal.objV _ => true
  | JsVal.arrV _ => true
  | JsVal.signalV _ => true

/-- `typeof v === 'object'` (true for plain objects, arrays and `null`). -/
def typeofObject : JsVal → Bool
  | JsVal.nullV => true
  | JsVal.objV _ => true
  | JsVal.arrV _ => true
  | JsVal.signalV _ => true
  | _ => false

/-- `Array.isArray(v)`. -/
def isArray : JsVal → Bool
  | JsVal.arrV _ => true
  | _ => false

/-- `args[args.length - 1]` (`undefined` for an empty argument list). -/
def lastArg (args : List JsVal) : JsVal := (args.getLast?).getD JsVal.undef

/-- `{ ...lastArg, signal: controller.signal }` when the last argument is
a plain object; unchanged otherwise. -/
def spreadWithSignal (v sig : JsVal) : JsVal :=
  match v with
  | JsVal.objV fields =>
      JsVal.objV ((fields.filter (fun pr => !(pr.1 == "signal"))) ++ [("signal", sig)])
  | other => other

/-- The argument list actually passed to the underlying function
(`dedupe.ts` lines 108-120): when the last argument is truthy, of type
object, and not an array, it is replaced by a copy carrying the abort
signal; in every other case the arguments are passed through unchanged —
the source has no branch that appends a new trailing options argument. -/
def buildFnArgs (args : List JsVal) (sig : JsVal) : List JsVal :=
  if jsTruthy (lastArg args) && typeofObject (lastArg args) && !isArray (lastArg args) then
    args.dropLast ++ [spreadWithSignal (lastArg args) sig]
  else args

/-- C8 (code evaluation at the failing input): with a non-object last
argument (the single string `arg`), the argument list reaching the
underlying function is unchanged — no trailing options argument carrying
the cancellation handle is appended; the plain-object case does receive
an injected copy. -/
theorem dedupe_signal_not_appended :
    buildFnArgs [JsVal.strV "arg"] (JsVal.signalV 0) = [JsVal.strV "arg"] ∧
    buildFnArgs [JsVal.strV "arg", JsVal.objV [("existingOption", JsVal.strV "value")]]
        (JsVal.signalV 0) =
      [JsVal.strV "arg",
       JsVal.objV [("existingOption", JsVal.strV "value"), ("signal", JsVal.signalV 0)]] :=
  ⟨rfl, rfl⟩

/-- The four ways a wrapped function can behave when invoked. -/
inductive FnBehavior where
  | resolves (v : JsVal)
  | rejects (r : RejectionValue)
  | throwsSync (r : RejectionValue)
  | nonPromise (v : JsVal)

/-- The settled outcome of a deduped call. -/
inductive CallOutcome where
  | resolvedWith (v : JsVal)
  | rejectedWith (r : RejectionValue)

/-- A fresh invocation carried through to settlement (`dedupe.ts` lines
81-132): register the record, run `const result = await fn(...)` inside
`try`/`catch`/`finally`.  A synchronous throw is caught like an
asynchronous rejection; `await` applied to a non-promise value resolves
to that value, so a non-promise-returning function settles the call as a
resolution.  The `finally` cleanup is the guarded delete. -/
def invokeNew (s : DedupeState) (key : String) (now : Nat) (beh : FnBehavior) :
    DedupeState × CallOutcome :=
  let p := startNew s key now
  let settled := settleCleanup p.1 key p.2
  match beh with
  | FnBehavior.resolves v => (settled, CallOutcome.resolvedWith v)
  | FnBehavior.rejects r => (settled, CallOutcome.rejectedWith r)
  | FnBehavior.throwsSync r => (settled, CallOutcome.rejectedWith r)
  | FnBehavior.nonPromise v => (settled, CallOutcome.resolvedWith v)

/-- C9 (code evaluation at the failing input): a wrapped function that
returns the plain string `not a promise` makes the deduped call RESOLVE
with that string — not reject — while a synchronous throw does surface
as a rejection of the ordinary shape; in both cases no in-flight record
remains observable. -/
theorem dedupe_non_promise_resolves :
    (invokeNew ⟨[], 0, 0⟩ "k" 0 (FnBehavior.nonPromise (JsVal.strV "not a promise"))).2 =
      CallOutcome.resolvedWith (JsVal.strV "not a promise") ∧
    dlookup "k" ((invokeNew ⟨[], 0, 0⟩ "k" 0
        (FnBehavior.nonPromise (JsVal.strV "not a promise"))).1).inProgress = none ∧
    (invokeNew ⟨[], 0, 0⟩ "k" 0
        (FnBehavior.throwsSync (RejectionValue.primitive "sync error"))).2 =
      CallOutcome.rejectedWith (RejectionValue.primitive "sync error") ∧
    dlookup "k" ((invokeNew ⟨[], 0, 0⟩ "k" 0
        (FnBehavior.throwsSync (RejectionValue.primitive "sync error"))).1).inProgress =
      none :=
  ⟨rfl, rfl, rfl, rfl⟩

end Dedupe

namespace Cache

/-- One cache entry (`cache.ts` lines 14-19); `value` abstracts both the
stored value and a stored error object, tagged by `isError` (an absent
`isError` field is falsy, i.e. `false`). -/
structure CEntry where
  value : Int
  expiry : Int
  lastAccessed : Int
  isError : Bool
deriving DecidableEq, Repr

/-- `asyncCache.get(key)` (`cache.ts` lines 215-242), applied to the
entry the LRU map holds for the key: fresh error entries and (under
stale-while-revalidate) stale error entries yield `undefined` (`none`);
only non-error values are returned.  The function is total — it never
throws.  (The `lastAccessed` touch and stat bumps in the source do not
affect the returned value.) -/
def cacheGet (swr : Bool) (now : Int) (entry : Option CEntry) : Option Int :=
  match entry with
  | none => none
  | some e =>
    if now < e.expiry then
      if e.isError then none else some e.value
    else if swr then
      if e.isError then none else some e.value
    else none

/-- What a wrapped-function call does at the cache-lookup stage
(`cache.ts` lines 108-168): a fresh error entry re-throws the stored
error, a fresh value returns, a stale entry under stale-while-revalidate
returns or re-throws the stale payload, anything else is a miss that
invokes the underlying function. -/
inductive WrappedHit where
  | hit (v : Int)
  | throwStored (v : Int)
  | staleHit (v : Int)
  | staleThrow (v : Int)
  | missFetch
deriving DecidableEq, Repr

/-- The hit/miss decision of the wrapped function (`cache.ts` lines
108-168). -/
def wrappedLookup (swr : Bool) (now : Int) (entry : Option CEntry) : WrappedHit :=
  match entry with
  | none => WrappedHit.missFetch
  | some e =>
    if now < e.expiry then
      if e.isError then WrappedHit.throwStored e.value else WrappedHit.hit e.value
    else if swr then
      if e.isError then WrappedHit.staleThrow e.value else WrappedHit.staleHit e.value
    else WrappedHit.missFetch

/-- C10: for an entry stored with `isError`, the direct `get` accessor
returns `undefined` whatever the freshness and whether or not
stale-while-revalidate is enabled — it never throws — although a
wrapped-function call hitting the same fresh error entry re-throws the
stored error. -/
theorem cache_get_error_entries (swr : Bool) (now : Int) (e : CEntry)
    (he : e.isError = true) :
    cacheGet swr now (some e) = none ∧
    (now < e.expiry → wrappedLookup swr now (some e) = WrappedHit.throwStored e.value) := by
  constructor
  · simp only [cacheGet, he]
    split_ifs <;> rfl
  · intro hfresh
    simp [wrappedLookup, he, hfresh]

/-- Witness for C10 at a concrete fresh error entry. -/
theorem cache_get_error_entries_witness :
    cacheGet false 50 (some ⟨42, 100, 0, true⟩) = none ∧
    (50 < (⟨42, 100, 0, true⟩ : CEntry).expiry →
      wrappedLookup false 50 (some ⟨42, 100, 0, true⟩) =
        WrappedHit.throwStored (⟨42, 100, 0, true⟩ : CEntry).value) :=
  cache_get_error_entries false 50 ⟨42, 100, 0, true⟩ rfl

end Cache
